import Mathlib

/-!
Verification of the settlement aggregation and geocoding pipeline
(`mapScraper`): a shallow embedding of `settlements.py`,
`ireland_bounds.py` and `transform_settlements.py`, together with
theorems settling the specification claims.

Conventions of the embedding:
* Python `int` is `ℤ`; Python `float` arithmetic is modelled exactly over `ℚ`.
* Python `round` (banker's rounding, half to even) is `pyRound`.
* Python dicts keyed by strings are association lists (`List (String × _)`),
  with `upsert` modelling `d[k] = v` and `List.lookup` modelling `d[k]`.
* A settlement dict is the record `Settlement`; the optional
  `constituent_settlements` key is an `Option (List String)`.
* The haversine distance test of `group_settlements` (float trigonometry)
  is abstracted as a Boolean parameter `near`; the Google-geocoding call of
  `fetch_locations_batch` (network) as a parameter `fetch : String → Option Coord`.
  Every theorem quantifies over these parameters, so it holds for the
  concrete float/network instantiations.
* Recursions that Python performs with `while` loops over shrinking lists are
  given a fuel argument (always called with fuel = list length, which suffices)
  so that every definition is kernel-executable.
-/

/-- Python's built-in `round`: round half to even (banker's rounding). -/
def pyRound (q : ℚ) : ℤ :=
  let f : ℤ := q.num / q.den
  let r : ℚ := q - (f : ℚ)
  if r < 1/2 then f
  else if 1/2 < r then f + 1
  else if 2 ∣ f then f else f + 1

theorem pyRound_floor (q : ℚ) : (q.num / q.den : ℤ) = ⌊q⌋ := Rat.floor_def.symm

/-- The distance of `pyRound q` from `q` is at most one half. -/
theorem abs_pyRound_sub_le (q : ℚ) : |(pyRound q : ℚ) - q| ≤ 1/2 := by
  unfold pyRound
  simp only [pyRound_floor]
  have h0 : (0 : ℚ) ≤ q - ⌊q⌋ := by
    have := Int.floor_le q
    linarith
  have h1 : q - ⌊q⌋ < 1 := by
    have := Int.lt_floor_add_one q
    linarith
  split
  · rename_i h
    rw [abs_le]; constructor <;> linarith
  · split
    · rename_i h h'
      push_cast
      rw [abs_le]; constructor <;> linarith
    · split <;>
      · rename_i h h' _
        push_cast
        rw [not_lt] at h h'
        have hq : q - ⌊q⌋ = 1/2 := le_antisymm h' h
        rw [abs_le]; constructor <;> linarith

/-- A resolved geographic coordinate, as stored in the `locations` checkpoint. -/
structure Coord where
  lat : ℚ
  lon : ℚ
deriving DecidableEq, Repr

/-- A settlement dict as it flows through the pipeline.  `lat`/`lon`
and `grid` are meaningful only after the geocoding / transform stages;
`constituents` is `none` when the dict has no `constituent_settlements` key. -/
structure Settlement where
  name : String
  population : ℤ
  lat : ℚ := 0
  lon : ℚ := 0
  constituents : Option (List String) := none
  grid : Option (ℚ × ℚ) := none
deriving DecidableEq, Repr

/-- Sum of the `population` values of a settlement list. -/
def sumPop (l : List Settlement) : ℤ := (l.map Settlement.population).sum

theorem sumPop_nil : sumPop [] = 0 := rfl

theorem sumPop_cons (s : Settlement) (l : List Settlement) :
    sumPop (s :: l) = s.population + sumPop l := rfl

theorem sumPop_append (l₁ l₂ : List Settlement) :
    sumPop (l₁ ++ l₂) = sumPop l₁ + sumPop l₂ := by
  simp [sumPop]

theorem sumPop_perm {l₁ l₂ : List Settlement} (h : l₁.Perm l₂) :
    sumPop l₁ = sumPop l₂ :=
  List.Perm.sum_eq (h.map Settlement.population)

/-- `list(dict.fromkeys(xs))` with an accumulator of already-seen keys:
    de-duplication preserving first-seen order. -/
def dedupKeys (seen : List String) : List String → List String
  | [] => []
  | x :: xs => if x ∈ seen then dedupKeys seen xs else x :: dedupKeys (x :: seen) xs

theorem mem_dedupKeys {seen : List String} {l : List String} {x : String} :
    x ∈ dedupKeys seen l ↔ x ∈ l ∧ x ∉ seen := by
  induction l generalizing seen with
  | nil => simp [dedupKeys]
  | cons y ys ih =>
    by_cases hy : y ∈ seen
    · rw [dedupKeys, if_pos hy, ih]
      constructor
      · rintro ⟨h1, h2⟩; exact ⟨List.mem_cons_of_mem _ h1, h2⟩
      · rintro ⟨h1, h2⟩
        rcases List.mem_cons.1 h1 with rfl | h1
        · exact absurd hy h2
        · exact ⟨h1, h2⟩
    · rw [dedupKeys, if_neg hy]
      constructor
      · intro hm
        rcases List.mem_cons.1 hm with rfl | hm
        · exact ⟨List.mem_cons_self x ys, hy⟩
        · obtain ⟨h1, h2⟩ := ih.1 hm
          exact ⟨List.mem_cons_of_mem _ h1,
            fun hc => h2 (List.mem_cons_of_mem _ hc)⟩
      · rintro ⟨h1, h2⟩
        rcases List.mem_cons.1 h1 with rfl | h1
        · exact List.mem_cons_self x _
        · by_cases hxy : x = y
          · exact hxy ▸ List.mem_cons_self y _
          · refine List.mem_cons_of_mem _ (ih.2 ⟨h1, fun hc => ?_⟩)
            rcases List.mem_cons.1 hc with h | h
            · exact hxy h
            · exact h2 h

theorem dedupKeys_sublist (seen : List String) (l : List String) :
    (dedupKeys seen l).Sublist l := by
  induction l generalizing seen with
  | nil => simp [dedupKeys]
  | cons y ys ih =>
    by_cases hy : y ∈ seen
    · simp only [dedupKeys, if_pos hy]
      exact (ih seen).trans (List.sublist_cons_self y ys)
    · simp only [dedupKeys, if_neg hy]
      exact (ih (y :: seen)).cons₂ y

theorem dedupKeys_nodup (seen : List String) (l : List String) :
    (dedupKeys seen l).Nodup := by
  induction l generalizing seen with
  | nil => simp [dedupKeys]
  | cons y ys ih =>
    by_cases hy : y ∈ seen
    · simp only [dedupKeys, if_pos hy]; exact ih seen
    · simp only [dedupKeys, if_neg hy]
      refine List.nodup_cons.2 ⟨fun hc => ?_, ih (y :: seen)⟩
      exact (mem_dedupKeys.1 hc).2 (List.mem_cons_self y seen)

/-- `list(dict.fromkeys(l))`: remove duplicates, keeping first occurrences. -/
def dedupFirst (l : List String) : List String := dedupKeys [] l

/-- Python's `str.split(sep)` on a single separator character, over the
    character list of the string. -/
def splitChar (sep : Char) : List Char → List (List Char)
  | [] => [[]]
  | c :: cs =>
    if c = sep then [] :: splitChar sep cs
    else
      match splitChar sep cs with
      | h :: t => (c :: h) :: t
      | [] => [[c]]

theorem splitChar_of_not_mem {sep : Char} {l : List Char} (h : sep ∉ l) :
    splitChar sep l = [l] := by
  induction l with
  | nil => rfl
  | cons c cs ih =>
    have hc : c ≠ sep := fun hcs => h (hcs ▸ List.mem_cons_self c cs)
    have hcs : sep ∉ cs := fun hm => h (List.mem_cons_of_mem c hm)
    simp only [splitChar, if_neg hc, ih hcs]

/-- Python's `str.strip()`: drop leading and trailing whitespace. -/
def stripChars (l : List Char) : List Char :=
  ((l.dropWhile Char.isWhitespace).reverse.dropWhile Char.isWhitespace).reverse

/-- `settlements.py` `get_admin_region`: split the name at commas, strip each
    part, and return the second part (the text between the first and second
    comma) when there is one, else the empty string. -/
def get_admin_region (name : String) : String :=
  let parts := (splitChar ',' name.toList).map stripChars
  match parts with
  | _ :: p :: _ => String.mk p
  | _ => ""

/-- A comma-free name has the empty administrative region. -/
theorem get_admin_region_of_no_comma {name : String} (h : ',' ∉ name.toList) :
    get_admin_region name = "" := by
  unfold get_admin_region
  rw [splitChar_of_not_mem h]
  rfl

/-! Ireland bounding box and grid transform of `ireland_bounds.py`,
consumed by the orchestrator (`settlements.py` `main`). -/

namespace IrelandBounds

def min_lat : ℚ := 51.4
def max_lat : ℚ := 55.4
def min_lon : ℚ := -10.6
def max_lon : ℚ := -5.9

/-- A `{'origin': …, 'scale': …}` transform dict. -/
structure Transform where
  origin : ℚ × ℚ
  scale : ℚ × ℚ
deriving DecidableEq, Repr

/-- `ireland_bounds.calculate_grid_transformation`: scale factors onto a
    50000×50000 grid. -/
def calculate_grid_transformation : Transform :=
  let lon_range := max_lon - min_lon
  let lat_range := max_lat - min_lat
  { origin := (min_lon, min_lat)
    scale := (50000 / lon_range, 50000 / lat_range) }

/-- `ireland_bounds.transform_coordinates`: apply a transform to a list of
    `(lon, lat)` pairs. -/
def transform_coordinates (coords : List (ℚ × ℚ)) (t : Transform) : List (ℚ × ℚ) :=
  coords.map fun p => ((p.1 - t.origin.1) * t.scale.1, (p.2 - t.origin.2) * t.scale.2)

/-- The single-point application the orchestrator performs:
    `transform_coordinates([(lon, lat)], transform)[0]`. -/
def transformPoint (p : ℚ × ℚ) : ℚ × ℚ :=
  (transform_coordinates [p] calculate_grid_transformation).headD (0, 0)

end IrelandBounds

/-! The separate `transform_settlements.py` script (not the orchestrator). -/

namespace TransformSettlements

/-- `transform_settlements.transform_coordinates`: maps `(lat, lon)` onto the
    0–100000 grid by per-axis linear interpolation. -/
def transform_coordinates (lat lon : ℚ) : ℚ × ℚ :=
  let lat_range := IrelandBounds.max_lat - IrelandBounds.min_lat
  let lon_range := IrelandBounds.max_lon - IrelandBounds.min_lon
  let lat_percent := (lat - IrelandBounds.min_lat) / lat_range
  let lon_percent := (lon - IrelandBounds.min_lon) / lon_range
  (lon_percent * 100000, lat_percent * 100000)

end TransformSettlements

/-- Modelled from the spec wording of the claim, for comparison with the code:
    per-axis linear interpolation of the bounding box onto
    `[0, 100000] × [0, 100000]` (the box's min corner to `(0,0)`, its max
    corner to `(100000, 100000)`). -/
def lerp100k (lat lon : ℚ) : ℚ × ℚ :=
  (100000 * (lon - IrelandBounds.min_lon) / (IrelandBounds.max_lon - IrelandBounds.min_lon),
   100000 * (lat - IrelandBounds.min_lat) / (IrelandBounds.max_lat - IrelandBounds.min_lat))

/-! The population pregrouper (`settlements.py` `pregroup_small_settlements`). -/

/-- Insert into a descending-by-population list, after all entries with
    population `≥` the new one (the placement Python's stable sort gives). -/
def insertDesc (s : Settlement) : List Settlement → List Settlement
  | [] => [s]
  | t :: ts => if t.population < s.population then s :: t :: ts else t :: insertDesc s ts

/-- `sorted(l, key=population, reverse=True)`: stable descending sort. -/
def sortByPopDesc (l : List Settlement) : List Settlement :=
  l.foldl (fun acc s => insertDesc s acc) []

theorem insertDesc_perm (s : Settlement) (l : List Settlement) :
    (insertDesc s l).Perm (s :: l) := by
  induction l with
  | nil => exact List.Perm.refl _
  | cons t ts ih =>
    unfold insertDesc
    split
    · exact List.Perm.refl _
    · exact (ih.cons t).trans (List.Perm.swap s t ts)

theorem foldl_insertDesc_perm (l acc : List Settlement) :
    (l.foldl (fun a s => insertDesc s a) acc).Perm (acc ++ l) := by
  induction l generalizing acc with
  | nil => simp
  | cons x xs ih =>
    have h1 := ih (insertDesc x acc)
    have h2 : (insertDesc x acc ++ xs).Perm (acc ++ x :: xs) :=
      ((insertDesc_perm x acc).append_right xs).trans List.perm_middle.symm
    exact h1.trans h2

theorem sortByPopDesc_perm (l : List Settlement) : (sortByPopDesc l).Perm l :=
  foldl_insertDesc_perm l []

theorem sumPop_sortByPopDesc (l : List Settlement) :
    sumPop (sortByPopDesc l) = sumPop l :=
  sumPop_perm (sortByPopDesc_perm l)

theorem mem_sortByPopDesc {l : List Settlement} {s : Settlement} :
    s ∈ sortByPopDesc l ↔ s ∈ l :=
  (sortByPopDesc_perm l).mem_iff

theorem length_sortByPopDesc (l : List Settlement) :
    (sortByPopDesc l).length = l.length :=
  (sortByPopDesc_perm l).length_eq

/-- Python `max(group, key=population)` on the nonempty list `c :: rest`:
    the first member attaining the maximal population. -/
def maxByPop (c : Settlement) (rest : List Settlement) : Settlement :=
  rest.foldl (fun m s => if m.population < s.population then s else m) c

theorem maxByPop_mem (c : Settlement) (rest : List Settlement) :
    maxByPop c rest ∈ c :: rest := by
  unfold maxByPop
  induction rest generalizing c with
  | nil => exact List.mem_cons_self c []
  | cons x xs ih =>
    rcases List.mem_cons.1 (ih (if c.population < x.population then x else c)) with h | h
    · rw [List.foldl_cons, h]
      split
      · exact List.mem_cons_of_mem _ (List.mem_cons_self x xs)
      · exact List.mem_cons_self c _
    · exact List.mem_cons_of_mem _ (List.mem_cons_of_mem _ h)

theorem le_maxByPop (c : Settlement) (rest : List Settlement) :
    ∀ s ∈ c :: rest, s.population ≤ (maxByPop c rest).population := by
  unfold maxByPop
  induction rest generalizing c with
  | nil =>
    intro s hs
    rcases List.mem_cons.1 hs with rfl | h
    · exact le_refl _
    · exact absurd h (List.not_mem_nil s)
  | cons x xs ih =>
    intro s hs
    have hbase : c.population ≤ (if c.population < x.population then x else c).population
        ∧ x.population ≤ (if c.population < x.population then x else c).population := by
      split <;> constructor <;> simp_all <;> omega
    rcases List.mem_cons.1 hs with rfl | h
    · exact le_trans hbase.1 (ih _ _ (List.mem_cons_self _ _))
    · rcases List.mem_cons.1 h with rfl | h
      · exact le_trans hbase.2 (ih _ _ (List.mem_cons_self _ _))
      · exact ih _ s (List.mem_cons_of_mem _ h)

/-- The inner accumulation loop of `pregroup_small_settlements`
    (`while i < len(region_settlements): if total_pop >= min_population: break …`):
    starting from the running total `total`, repeatedly move the front
    settlement into the group while the total is still below the floor.
    Returns (members taken, untaken remainder). -/
def takeGroup (minp total : ℤ) : List Settlement → List Settlement × List Settlement
  | [] => ([], [])
  | x :: xs =>
    if minp ≤ total then ([], x :: xs)
    else ((x :: (takeGroup minp (total + x.population) xs).1),
          (takeGroup minp (total + x.population) xs).2)

theorem takeGroup_append (minp : ℤ) (l : List Settlement) (total : ℤ) :
    (takeGroup minp total l).1 ++ (takeGroup minp total l).2 = l := by
  induction l generalizing total with
  | nil => rfl
  | cons x xs ih =>
    unfold takeGroup
    split
    · rfl
    · simpa using ih (total + x.population)

theorem takeGroup_snd_length (minp : ℤ) (l : List Settlement) (total : ℤ) :
    (takeGroup minp total l).2.length ≤ l.length := by
  have h := congrArg List.length (takeGroup_append minp l total)
  rw [List.length_append] at h
  omega

theorem takeGroup_stop (minp : ℤ) (l : List Settlement) (total : ℤ)
    (h : (takeGroup minp total l).2 ≠ []) :
    minp ≤ total + sumPop (takeGroup minp total l).1 := by
  induction l generalizing total with
  | nil => exact absurd rfl h
  | cons x xs ih =>
    rw [takeGroup] at h ⊢
    by_cases hc : minp ≤ total
    · rw [if_pos hc]
      simpa [sumPop] using hc
    · rw [if_neg hc] at h ⊢
      have := ih (total + x.population) (by simpa using h)
      rw [sumPop_cons]
      omega

/-- Lines 501–520 of `settlements.py`: a group of two or more settlements is
    collapsed into a merged dict (name of the largest member, summed
    population, de-duplicated flattened constituent names); a singleton group
    is appended unchanged. -/
def mergeGroup (c : Settlement) (others : List Settlement) : Settlement :=
  match others with
  | [] => c
  | _ :: _ =>
    { name := (maxByPop c others).name
      population := sumPop (c :: others)
      constituents := some (dedupFirst ((c :: others).flatMap
        fun s => s.name :: s.constituents.getD [])) }

theorem mergeGroup_population (c : Settlement) (others : List Settlement) :
    (mergeGroup c others).population = sumPop (c :: others) := by
  cases others <;> simp [mergeGroup, sumPop]

/-- Fuelled form of the `while region_settlements:` loop: pop the front
    settlement, accumulate a group, merge it, repeat.  Fuel `≥` list length
    always suffices. -/
def processRegionF (minp : ℤ) : ℕ → List Settlement → List Settlement
  | _, [] => []
  | 0, _ :: _ => []
  | fuel + 1, c :: rest =>
    mergeGroup c (takeGroup minp c.population rest).1 ::
      processRegionF minp fuel (takeGroup minp c.population rest).2

/-- The per-region grouping loop of `pregroup_small_settlements`. -/
def processRegion (minp : ℤ) (rs : List Settlement) : List Settlement :=
  processRegionF minp rs.length rs

theorem sumPop_processRegionF (minp : ℤ) (fuel : ℕ) (l : List Settlement)
    (h : l.length ≤ fuel) : sumPop (processRegionF minp fuel l) = sumPop l := by
  induction fuel generalizing l with
  | zero =>
    cases l with
    | nil => rfl
    | cons c rest => simp at h
  | succ fuel ih =>
    cases l with
    | nil => rfl
    | cons c rest =>
      have hlen : (takeGroup minp c.population rest).2.length ≤ fuel :=
        le_trans (takeGroup_snd_length _ _ _) (by simpa using h)
      rw [processRegionF, sumPop_cons, mergeGroup_population, ih _ hlen]
      have h2 := congrArg sumPop (takeGroup_append minp rest c.population)
      rw [sumPop_append] at h2
      simp only [sumPop_cons]
      omega

theorem sumPop_processRegion (minp : ℤ) (l : List Settlement) :
    sumPop (processRegion minp l) = sumPop l :=
  sumPop_processRegionF minp l.length l (le_refl _)

theorem length_processRegionF (minp : ℤ) (fuel : ℕ) (l : List Settlement)
    (h : l.length ≤ fuel) : (processRegionF minp fuel l).length ≤ l.length := by
  induction fuel generalizing l with
  | zero =>
    cases l with
    | nil => simp [processRegionF]
    | cons c rest => simp at h
  | succ fuel ih =>
    cases l with
    | nil => simp [processRegionF]
    | cons c rest =>
      have hsp := takeGroup_snd_length minp rest c.population
      have hlen : (takeGroup minp c.population rest).2.length ≤ fuel :=
        le_trans hsp (by simpa using h)
      have := ih _ hlen
      simp only [processRegionF, List.length_cons]
      omega

theorem length_processRegion (minp : ℤ) (l : List Settlement) :
    (processRegion minp l).length ≤ l.length :=
  length_processRegionF minp l.length l (le_refl _)

theorem processRegionF_ne_nil (minp : ℤ) (fuel : ℕ) (l : List Settlement)
    (hl : l ≠ []) (h : 1 ≤ fuel) : processRegionF minp fuel l ≠ [] := by
  cases l with
  | nil => exact absurd rfl hl
  | cons c rest =>
    cases fuel with
    | zero => omega
    | succ fuel => simp [processRegionF]

theorem processRegionF_dropLast (minp : ℤ) (fuel : ℕ) (l : List Settlement)
    (h : l.length ≤ fuel) :
    ∀ m ∈ (processRegionF minp fuel l).dropLast, minp ≤ m.population := by
  induction fuel generalizing l with
  | zero =>
    cases l with
    | nil => simp [processRegionF]
    | cons c rest => simp at h
  | succ fuel ih =>
    cases l with
    | nil => simp [processRegionF]
    | cons c rest =>
      rw [processRegionF]
      by_cases hp : (takeGroup minp c.population rest).2 = []
      · rw [hp]
        cases fuel <;> simp [processRegionF]
      · have hlen : (takeGroup minp c.population rest).2.length ≤ fuel :=
          le_trans (takeGroup_snd_length _ _ _) (by simpa using h)
        have hne : processRegionF minp fuel (takeGroup minp c.population rest).2 ≠ [] := by
          cases fuel with
          | zero =>
            exfalso
            cases hq : (takeGroup minp c.population rest).2 with
            | nil => exact hp hq
            | cons a as => rw [hq] at hlen; simp at hlen
          | succ fuel => exact processRegionF_ne_nil _ _ _ hp (by omega)
        intro m hm
        rcases hq : processRegionF minp fuel (takeGroup minp c.population rest).2 with
          _ | ⟨g, gs⟩
        · exact absurd hq hne
        · rw [hq, List.dropLast_cons₂] at hm
          rcases List.mem_cons.1 hm with rfl | hm
          · have hstop := takeGroup_stop minp rest c.population hp
            rw [mergeGroup_population, sumPop_cons]
            omega
          · have := ih _ hlen
            rw [hq] at this
            exact this m hm

theorem processRegion_dropLast (minp : ℤ) (l : List Settlement) :
    ∀ m ∈ (processRegion minp l).dropLast, minp ≤ m.population :=
  processRegionF_dropLast minp l.length l (le_refl _)

/-- One step of `defaultdict(list)` accumulation: append `s` to the bucket
    keyed `region`, creating the bucket at the end on first sight of the key
    (Python dicts preserve insertion order). -/
def addToBucket (region : String) (s : Settlement) :
    List (String × List Settlement) → List (String × List Settlement)
  | [] => [(region, [s])]
  | (r, ss) :: bs =>
    if r = region then (r, ss ++ [s]) :: bs else (r, ss) :: addToBucket region s bs

/-- Lines 473–477 of `settlements.py`: partition the below-floor settlements by
    administrative region, in insertion order. -/
def bucketize (l : List Settlement) : List (String × List Settlement) :=
  l.foldl (fun bs s => addToBucket (get_admin_region s.name) s bs) []

theorem addToBucket_flat_perm (region : String) (s : Settlement)
    (bs : List (String × List Settlement)) :
    ((addToBucket region s bs).flatMap Prod.snd).Perm
      ((bs.flatMap Prod.snd) ++ [s]) := by
  induction bs with
  | nil => simp [addToBucket]
  | cons b bs ih =>
    obtain ⟨r, ss⟩ := b
    rw [addToBucket]
    split
    · simp only [List.flatMap_cons, List.append_assoc]
      exact (List.perm_append_comm).append_left ss
    · simp only [List.flatMap_cons, List.append_assoc]
      exact ih.append_left ss

theorem bucketize_flat_perm (l : List Settlement) :
    ((bucketize l).flatMap Prod.snd).Perm l := by
  suffices h : ∀ acc : List (String × List Settlement), ∀ l : List Settlement,
      ((l.foldl (fun bs s => addToBucket (get_admin_region s.name) s bs) acc).flatMap
        Prod.snd).Perm ((acc.flatMap Prod.snd) ++ l) by
    simpa using h [] l
  intro acc l
  induction l generalizing acc with
  | nil => simp
  | cons x xs ih =>
    rw [List.foldl_cons]
    refine (ih _).trans ?_
    have h1 := (addToBucket_flat_perm (get_admin_region x.name) x acc).append_right xs
    refine h1.trans ?_
    rw [List.append_assoc]
    exact List.Perm.refl _

theorem bucketize_region (l : List Settlement) :
    ∀ b ∈ bucketize l, ∀ s ∈ b.2, get_admin_region s.name = b.1 := by
  suffices h : ∀ acc : List (String × List Settlement), ∀ l : List Settlement,
      (∀ b ∈ acc, ∀ s ∈ b.2, get_admin_region s.name = b.1) →
      ∀ b ∈ l.foldl (fun bs s => addToBucket (get_admin_region s.name) s bs) acc,
        ∀ s ∈ b.2, get_admin_region s.name = b.1 by
    exact h [] l (by simp)
  have hstep : ∀ (region : String) (x : Settlement)
      (acc : List (String × List Settlement)),
      get_admin_region x.name = region →
      (∀ b ∈ acc, ∀ s ∈ b.2, get_admin_region s.name = b.1) →
      ∀ b ∈ addToBucket region x acc, ∀ s ∈ b.2, get_admin_region s.name = b.1 := by
    intro region x acc hx hacc
    induction acc with
    | nil =>
      intro b hb s hs
      rw [addToBucket] at hb
      rcases List.mem_cons.1 hb with rfl | hb
      · rcases List.mem_singleton.1 hs with rfl
        exact hx
      · exact absurd hb (List.not_mem_nil b)
    | cons a as ih =>
      obtain ⟨r, ss⟩ := a
      intro b hb s hs
      rw [addToBucket] at hb
      split at hb
      · rename_i hr
        rcases List.mem_cons.1 hb with rfl | hb
        · rcases List.mem_append.1 hs with hs | hs
          · exact hacc (r, ss) (List.mem_cons_self _ _) s hs
          · rcases List.mem_singleton.1 hs with rfl
            rw [hx, hr]
        · exact hacc b (List.mem_cons_of_mem _ hb) s hs
      · rcases List.mem_cons.1 hb with rfl | hb
        · exact hacc (r, ss) (List.mem_cons_self _ _) s hs
        · exact ih (fun b' hb' => hacc b' (List.mem_cons_of_mem _ hb')) b hb s hs
  intro acc l
  induction l generalizing acc with
  | nil => intro hacc; simpa using hacc
  | cons x xs ih =>
    intro hacc
    rw [List.foldl_cons]
    exact ih _ (hstep _ x acc rfl hacc)

/-- Lines 522–534 of `settlements.py`: if the pre/post totals differ, add to
    each settlement its rounded proportional share of the difference
    (`round(population_difference * population / total_result_population)`),
    the denominator being the post-grouping total computed before any update. -/
def redistribute (diff : ℤ) (result : List Settlement) : List Settlement :=
  if diff = 0 then result
  else
    result.map fun s =>
      { s with population :=
          s.population + pyRound ((diff : ℚ) * (s.population : ℚ) / (sumPop result : ℚ)) }

theorem redistribute_zero (result : List Settlement) : redistribute 0 result = result :=
  if_pos rfl

/-- `settlements.py` `pregroup_small_settlements` (defaults in the source:
    `min_population=1000`, `max_settlements=1000`).  Counts `≤ max_settlements`
    are returned unchanged; otherwise above-floor settlements pass through and
    each region's below-floor settlements are greedily grouped, then any
    population difference is redistributed. -/
def pregroup_small_settlements (settlements : List Settlement)
    (min_population : ℤ) (max_settlements : ℕ) : List Settlement :=
  if settlements.length ≤ max_settlements then settlements
  else
    redistribute
      (sumPop settlements -
        sumPop (((sortByPopDesc settlements).filter
            (fun s => decide (min_population ≤ s.population))) ++
          (bucketize ((sortByPopDesc settlements).filter
              (fun s => decide (s.population < min_population)))).flatMap
            (fun b => processRegion min_population (sortByPopDesc b.2))))
      (((sortByPopDesc settlements).filter
          (fun s => decide (min_population ≤ s.population))) ++
        (bucketize ((sortByPopDesc settlements).filter
            (fun s => decide (s.population < min_population)))).flatMap
          (fun b => processRegion min_population (sortByPopDesc b.2)))

/-- The raw (pre-redistribution) output of the pregrouper's slow path. -/
def pregroupRaw (settlements : List Settlement) (min_population : ℤ) :
    List Settlement :=
  ((sortByPopDesc settlements).filter
      (fun s => decide (min_population ≤ s.population))) ++
    (bucketize ((sortByPopDesc settlements).filter
        (fun s => decide (s.population < min_population)))).flatMap
      (fun b => processRegion min_population (sortByPopDesc b.2))

theorem sumPop_filter_partition (minp : ℤ) (l : List Settlement) :
    sumPop (l.filter (fun s => decide (minp ≤ s.population))) +
      sumPop (l.filter (fun s => decide (s.population < minp))) = sumPop l := by
  induction l with
  | nil => rfl
  | cons x xs ih =>
    by_cases hx : minp ≤ x.population
    · rw [List.filter_cons_of_pos (by simpa using hx),
        List.filter_cons_of_neg (by simpa using hx), sumPop_cons, sumPop_cons]
      omega
    · rw [List.filter_cons_of_neg (by simpa using hx),
        List.filter_cons_of_pos (by simp; omega), sumPop_cons, sumPop_cons]
      omega

theorem sumPop_flatMap_processRegion (minp : ℤ)
    (bs : List (String × List Settlement)) :
    sumPop (bs.flatMap fun b => processRegion minp (sortByPopDesc b.2)) =
      sumPop (bs.flatMap Prod.snd) := by
  induction bs with
  | nil => rfl
  | cons b bs ih =>
    simp only [List.flatMap_cons, sumPop_append, ih,
      sumPop_processRegion, sumPop_sortByPopDesc]

/-- The raw pregrouper output conserves total population exactly, so the
    redistribution step of the pregrouper never fires. -/
theorem sumPop_pregroupRaw (settlements : List Settlement) (minp : ℤ) :
    sumPop (pregroupRaw settlements minp) = sumPop settlements := by
  unfold pregroupRaw
  rw [sumPop_append, sumPop_flatMap_processRegion,
    sumPop_perm (bucketize_flat_perm _), sumPop_filter_partition,
    sumPop_sortByPopDesc]

theorem pregroup_eq_raw (settlements : List Settlement) (minp : ℤ)
    (maxs : ℕ) (h : ¬ settlements.length ≤ maxs) :
    pregroup_small_settlements settlements minp maxs = pregroupRaw settlements minp := by
  rw [pregroup_small_settlements, if_neg h]
  show redistribute (sumPop settlements - sumPop (pregroupRaw settlements minp))
    (pregroupRaw settlements minp) = _
  rw [sumPop_pregroupRaw, sub_self, redistribute_zero]

/-- The pregrouper conserves the total population on every input. -/
theorem sumPop_pregroup (settlements : List Settlement) (minp : ℤ) (maxs : ℕ) :
    sumPop (pregroup_small_settlements settlements minp maxs) = sumPop settlements := by
  by_cases h : settlements.length ≤ maxs
  · rw [pregroup_small_settlements, if_pos h]
  · rw [pregroup_eq_raw _ _ _ h, sumPop_pregroupRaw]

theorem mem_pregroupRaw_of_above (settlements : List Settlement) (minp : ℤ)
    {s : Settlement} (hs : s ∈ settlements) (hp : minp ≤ s.population) :
    s ∈ pregroupRaw settlements minp := by
  unfold pregroupRaw
  refine List.mem_append_left _ (List.mem_filter.2 ⟨mem_sortByPopDesc.2 hs, ?_⟩)
  simpa using hp

theorem length_filter_partition (minp : ℤ) (l : List Settlement) :
    (l.filter (fun s => decide (minp ≤ s.population))).length +
      (l.filter (fun s => decide (s.population < minp))).length = l.length := by
  induction l with
  | nil => rfl
  | cons x xs ih =>
    by_cases hx : minp ≤ x.population
    · rw [List.filter_cons_of_pos (by simpa using hx),
        List.filter_cons_of_neg (by simpa using hx)]
      simp only [List.length_cons]
      omega
    · rw [List.filter_cons_of_neg (by simpa using hx),
        List.filter_cons_of_pos (by simp; omega)]
      simp only [List.length_cons]
      omega

theorem length_flatMap_processRegion_le (minp : ℤ)
    (bs : List (String × List Settlement)) :
    (bs.flatMap fun b => processRegion minp (sortByPopDesc b.2)).length ≤
      (bs.flatMap Prod.snd).length := by
  induction bs with
  | nil => simp
  | cons b bs ih =>
    simp only [List.flatMap_cons, List.length_append]
    have h1 : (processRegion minp (sortByPopDesc b.2)).length ≤ b.2.length := by
      have := length_processRegion minp (sortByPopDesc b.2)
      rw [length_sortByPopDesc] at this
      exact this
    omega

theorem length_pregroupRaw_le (settlements : List Settlement) (minp : ℤ) :
    (pregroupRaw settlements minp).length ≤ settlements.length := by
  unfold pregroupRaw
  rw [List.length_append]
  have h1 := length_flatMap_processRegion_le minp
    (bucketize ((sortByPopDesc settlements).filter
      (fun s => decide (s.population < minp))))
  have h2 := (bucketize_flat_perm ((sortByPopDesc settlements).filter
      (fun s => decide (s.population < minp)))).length_eq
  have h3 := length_filter_partition minp (sortByPopDesc settlements)
  have h4 := length_sortByPopDesc settlements
  omega

theorem flatMap_eq_nil_forall {α β : Type} (f : α → List β) (l : List α)
    (h : l.flatMap f = []) : ∀ a ∈ l, f a = [] := by
  induction l with
  | nil => intro a ha; exact absurd ha (List.not_mem_nil a)
  | cons x xs ih =>
    rw [List.flatMap_cons] at h
    obtain ⟨h1, h2⟩ := List.append_eq_nil.1 h
    intro a ha
    rcases List.mem_cons.1 ha with rfl | ha
    · exact h1
    · exact ih h2 a ha

theorem pregroupRaw_ne_nil (settlements : List Settlement) (minp : ℤ)
    (h : settlements ≠ []) : pregroupRaw settlements minp ≠ [] := by
  intro hnil
  unfold pregroupRaw at hnil
  obtain ⟨h1, h2⟩ := List.append_eq_nil.1 hnil
  have hbuckets : ∀ b ∈ bucketize ((sortByPopDesc settlements).filter
      (fun s => decide (s.population < minp))), b.2 = [] := by
    intro b hb
    have hpr := flatMap_eq_nil_forall _ _ h2 b hb
    by_contra hb2
    have hsort : sortByPopDesc b.2 ≠ [] := by
      intro hs
      have := length_sortByPopDesc b.2
      rw [hs] at this
      exact hb2 (List.length_eq_zero.1 this.symm)
    refine processRegionF_ne_nil minp (sortByPopDesc b.2).length _ hsort ?_ hpr
    rcases hq : sortByPopDesc b.2 with _ | ⟨a, as⟩
    · exact absurd hq hsort
    · simp [hq]
  have hflat : ((bucketize ((sortByPopDesc settlements).filter
      (fun s => decide (s.population < minp)))).flatMap Prod.snd) = [] := by
    apply List.eq_nil_iff_forall_not_mem.2
    intro x hx
    obtain ⟨b, hb, hxb⟩ := List.mem_flatMap.1 hx
    rw [hbuckets b hb] at hxb
    exact List.not_mem_nil x hxb
  have hlt : ((sortByPopDesc settlements).filter
      (fun s => decide (s.population < minp))) = [] := by
    have hp := bucketize_flat_perm ((sortByPopDesc settlements).filter
      (fun s => decide (s.population < minp)))
    rw [hflat] at hp
    exact hp.symm.eq_nil
  have h3 := length_filter_partition minp (sortByPopDesc settlements)
  rw [h1, hlt] at h3
  have h4 := length_sortByPopDesc settlements
  apply h
  apply List.length_eq_zero.1
  simp at h3
  omega

theorem pregroup_ne_nil (settlements : List Settlement) (minp : ℤ) (maxs : ℕ)
    (h : settlements ≠ []) : pregroup_small_settlements settlements minp maxs ≠ [] := by
  by_cases hc : settlements.length ≤ maxs
  · rw [pregroup_small_settlements, if_pos hc]; exact h
  · rw [pregroup_eq_raw _ _ _ hc]; exact pregroupRaw_ne_nil _ _ h

theorem takeGroup_fst_subset (minp total : ℤ) (l : List Settlement) :
    ∀ o ∈ (takeGroup minp total l).1, o ∈ l := by
  intro o ho
  rw [← takeGroup_append minp l total]
  exact List.mem_append_left _ ho

theorem takeGroup_snd_subset (minp total : ℤ) (l : List Settlement) :
    ∀ o ∈ (takeGroup minp total l).2, o ∈ l := by
  intro o ho
  rw [← takeGroup_append minp l total]
  exact List.mem_append_right _ ho

theorem processRegionF_members (minp : ℤ) (fuel : ℕ) (l : List Settlement)
    (h : l.length ≤ fuel) :
    ∀ m ∈ processRegionF minp fuel l, ∃ c others, m = mergeGroup c others ∧
      c ∈ l ∧ ∀ o ∈ others, o ∈ l := by
  induction fuel generalizing l with
  | zero =>
    cases l with
    | nil => simp [processRegionF]
    | cons c rest => simp at h
  | succ fuel ih =>
    cases l with
    | nil => simp [processRegionF]
    | cons c rest =>
      intro m hm
      rw [processRegionF] at hm
      rcases List.mem_cons.1 hm with rfl | hm
      · exact ⟨c, (takeGroup minp c.population rest).1, rfl,
          List.mem_cons_self c rest,
          fun o ho => List.mem_cons_of_mem _ (takeGroup_fst_subset _ _ _ o ho)⟩
      · have hlen : (takeGroup minp c.population rest).2.length ≤ fuel :=
          le_trans (takeGroup_snd_length _ _ _) (by simpa using h)
        obtain ⟨c', others, heq, hc', ho⟩ := ih _ hlen m hm
        exact ⟨c', others, heq,
          List.mem_cons_of_mem _ (takeGroup_snd_subset _ _ _ c' hc'),
          fun o hoo => List.mem_cons_of_mem _ (takeGroup_snd_subset _ _ _ o (ho o hoo))⟩

/-- A settlement's recorded constituents (its own name if it has none) all
    carry the administrative region of its own name. -/
def regionConsistent (s : Settlement) : Prop :=
  ∀ c ∈ s.constituents.getD [s.name], get_admin_region c = get_admin_region s.name

instance (s : Settlement) : Decidable (regionConsistent s) := by
  unfold regionConsistent
  infer_instance

theorem mergeGroup_region (c : Settlement) (others : List Settlement) (r : String)
    (hall : ∀ x ∈ c :: others, get_admin_region x.name = r ∧ regionConsistent x) :
    get_admin_region (mergeGroup c others).name = r ∧
      regionConsistent (mergeGroup c others) := by
  cases others with
  | nil => exact ⟨(hall c (List.mem_cons_self c [])).1, (hall c (List.mem_cons_self c [])).2⟩
  | cons o os =>
    have hname : get_admin_region (mergeGroup c (o :: os)).name = r := by
      have hmem := maxByPop_mem c (o :: os)
      exact (hall _ hmem).1
    refine ⟨hname, ?_⟩
    intro cn hcn
    rw [hname]
    have hcn' : cn ∈ dedupFirst ((c :: o :: os).flatMap
        fun s => s.name :: s.constituents.getD []) := by
      simpa [mergeGroup] using hcn
    have hmem := (mem_dedupKeys.1 hcn').1
    obtain ⟨s, hsmem, hcs⟩ := List.mem_flatMap.1 hmem
    obtain ⟨hsr, hscons⟩ := hall s hsmem
    rcases List.mem_cons.1 hcs with rfl | hcs
    · exact hsr
    · have : get_admin_region cn = get_admin_region s.name := by
        cases hco : s.constituents with
        | none => rw [hco] at hcs; exact absurd hcs (List.not_mem_nil cn)
        | some cs =>
          apply hscons
          rw [hco] at hcs ⊢
          exact hcs
      rw [this, hsr]

theorem pregroupRaw_regionConsistent (settlements : List Settlement) (minp : ℤ)
    (hcons : ∀ s ∈ settlements, regionConsistent s) :
    ∀ s ∈ pregroupRaw settlements minp, regionConsistent s := by
  intro s hs
  unfold pregroupRaw at hs
  rcases List.mem_append.1 hs with hs | hs
  · exact hcons s (mem_sortByPopDesc.1 (List.mem_filter.1 hs).1)
  · obtain ⟨b, hb, hsb⟩ := List.mem_flatMap.1 hs
    have hmem := processRegionF_members minp (sortByPopDesc b.2).length
      (sortByPopDesc b.2) (le_refl _) s hsb
    obtain ⟨c, others, heq, hc, ho⟩ := hmem
    have hin : ∀ x ∈ c :: others,
        get_admin_region x.name = b.1 ∧ regionConsistent x := by
      intro x hx
      have hxb : x ∈ b.2 := by
        rcases List.mem_cons.1 hx with rfl | hx
        · exact mem_sortByPopDesc.1 hc
        · exact mem_sortByPopDesc.1 (ho x hx)
      refine ⟨bucketize_region _ b hb x hxb, ?_⟩
      have : x ∈ (bucketize ((sortByPopDesc settlements).filter
          (fun s => decide (s.population < minp)))).flatMap Prod.snd :=
        List.mem_flatMap.2 ⟨b, hb, hxb⟩
      have hx2 := (bucketize_flat_perm _).mem_iff.1 this
      exact hcons x (mem_sortByPopDesc.1 (List.mem_filter.1 hx2).1)
    rw [heq]
    exact (mergeGroup_region c others b.1 hin).2

theorem pregroup_regionConsistent (settlements : List Settlement) (minp : ℤ)
    (maxs : ℕ) (hcons : ∀ s ∈ settlements, regionConsistent s) :
    ∀ s ∈ pregroup_small_settlements settlements minp maxs, regionConsistent s := by
  by_cases hc : settlements.length ≤ maxs
  · rw [pregroup_small_settlements, if_pos hc]; exact hcons
  · rw [pregroup_eq_raw _ _ _ hc]
    exact pregroupRaw_regionConsistent settlements minp hcons

/-! The spatial clusterer (`settlements.py` `group_settlements`) and the
settlement merger (`process_settlement_group`).  The haversine test
`calculate_distance(…) <= max_distance` is the Boolean parameter `near`. -/

/-- The inner scan of `group_settlements`: walk the not-yet-used settlements
    in order; a candidate in the seed's region that is `near` some current
    group member is appended to the group, otherwise it stays unused.
    Returns (final group, still-unused settlements in order). -/
def scanGroup (near : Settlement → Settlement → Bool) (region : String) :
    List Settlement → List Settlement → List Settlement × List Settlement
  | group, [] => (group, [])
  | group, c :: cs =>
    if get_admin_region c.name == region && group.any (fun s => near s c)
    then scanGroup near region (group ++ [c]) cs
    else ((scanGroup near region group cs).1, c :: (scanGroup near region group cs).2)

theorem scanGroup_perm (near : Settlement → Settlement → Bool) (region : String)
    (l group : List Settlement) :
    ((scanGroup near region group l).1 ++ (scanGroup near region group l).2).Perm
      (group ++ l) := by
  induction l generalizing group with
  | nil => simp [scanGroup]
  | cons c cs ih =>
    rw [scanGroup]
    split
    · refine (ih (group ++ [c])).trans ?_
      rw [List.append_assoc]
      exact List.Perm.refl _
    · refine (List.perm_middle).trans ?_
      exact ((ih group).cons c).trans List.perm_middle.symm

theorem scanGroup_snd_length (near : Settlement → Settlement → Bool)
    (region : String) (l group : List Settlement) :
    (scanGroup near region group l).2.length ≤ l.length := by
  induction l generalizing group with
  | nil => simp [scanGroup]
  | cons c cs ih =>
    rw [scanGroup]
    split
    · exact le_trans (ih (group ++ [c])) (Nat.le_succ _)
    · simpa using ih group

theorem scanGroup_region (near : Settlement → Settlement → Bool) (region : String)
    (l group : List Settlement)
    (hg : ∀ s ∈ group, get_admin_region s.name = region) :
    ∀ s ∈ (scanGroup near region group l).1, get_admin_region s.name = region := by
  induction l generalizing group with
  | nil => simpa [scanGroup] using hg
  | cons c cs ih =>
    rw [scanGroup]
    split
    · rename_i hcond
      refine ih (group ++ [c]) ?_
      intro s hs
      rcases List.mem_append.1 hs with hs | hs
      · exact hg s hs
      · rcases List.mem_singleton.1 hs with rfl
        rw [Bool.and_eq_true] at hcond
        exact beq_iff_eq.1 hcond.1
    · exact ih group hg

/-- Fuelled outer loop of `group_settlements`: the first unused settlement
    (largest remaining population) seeds a new cluster, which is grown by one
    scan over the remaining unused settlements. -/
def groupLoopF (near : Settlement → Settlement → Bool) :
    ℕ → List Settlement → List (List Settlement)
  | _, [] => []
  | 0, _ :: _ => []
  | fuel + 1, s :: rest =>
    (scanGroup near (get_admin_region s.name) [s] rest).1 ::
      groupLoopF near fuel (scanGroup near (get_admin_region s.name) [s] rest).2

/-- `settlements.py` `group_settlements`: sort by population descending, then
    repeatedly open a cluster with the first unused settlement and scan the
    rest (same region, within distance of some current member). -/
def group_settlements (near : Settlement → Settlement → Bool)
    (settlements : List Settlement) : List (List Settlement) :=
  groupLoopF near settlements.length (sortByPopDesc settlements)

theorem groupLoopF_flat_perm (near : Settlement → Settlement → Bool) (fuel : ℕ)
    (l : List Settlement) (h : l.length ≤ fuel) :
    ((groupLoopF near fuel l).flatMap id).Perm l := by
  induction fuel generalizing l with
  | zero =>
    cases l with
    | nil => simp [groupLoopF]
    | cons s rest => simp at h
  | succ fuel ih =>
    cases l with
    | nil => simp [groupLoopF]
    | cons s rest =>
      rw [groupLoopF, List.flatMap_cons]
      have hlen : (scanGroup near (get_admin_region s.name) [s] rest).2.length ≤ fuel :=
        le_trans (scanGroup_snd_length _ _ _ _) (by simpa using h)
      have h1 := ih _ hlen
      refine (h1.append_left _).trans ?_
      simpa using scanGroup_perm near (get_admin_region s.name) rest [s]

theorem group_settlements_flat_perm (near : Settlement → Settlement → Bool)
    (settlements : List Settlement) :
    ((group_settlements near settlements).flatMap id).Perm settlements := by
  unfold group_settlements
  refine (groupLoopF_flat_perm near settlements.length (sortByPopDesc settlements)
    (by rw [length_sortByPopDesc])).trans ?_
  exact sortByPopDesc_perm settlements

/-- Every cluster produced by `group_settlements` is region-pure. -/
theorem groupLoopF_region_pure (near : Settlement → Settlement → Bool) (fuel : ℕ)
    (l : List Settlement) :
    ∀ g ∈ groupLoopF near fuel l, ∀ s₁ ∈ g, ∀ s₂ ∈ g,
      get_admin_region s₁.name = get_admin_region s₂.name := by
  induction fuel generalizing l with
  | zero =>
    cases l with
    | nil => simp [groupLoopF]
    | cons s rest => simp [groupLoopF]
  | succ fuel ih =>
    cases l with
    | nil => simp [groupLoopF]
    | cons s rest =>
      intro g hg s₁ hs₁ s₂ hs₂
      rw [groupLoopF] at hg
      rcases List.mem_cons.1 hg with rfl | hg
      · have hr := scanGroup_region near (get_admin_region s.name) rest [s]
          (by intro x hx; rcases List.mem_singleton.1 hx with rfl; rfl)
        rw [hr s₁ hs₁, hr s₂ hs₂]
      · exact ih _ g hg s₁ hs₁ s₂ hs₂

/-- `settlements.py` `process_settlement_group`: collapse a cluster into one
    settlement dict (population-weighted centroid, summed population, name of
    the first largest member, de-duplicated flattened constituents, always
    including each member's own name).  An empty cluster (never produced by
    `group_settlements`; in Python it would divide by zero) maps to a dummy. -/
def process_settlement_group (group : List Settlement) : Settlement :=
  match group with
  | [] => { name := "", population := 0 }
  | c :: rest =>
    { name := (maxByPop c rest).name
      lat := ((c :: rest).map fun s => s.lat * (s.population : ℚ)).sum /
        ((sumPop (c :: rest) : ℤ) : ℚ)
      lon := ((c :: rest).map fun s => s.lon * (s.population : ℚ)).sum /
        ((sumPop (c :: rest) : ℤ) : ℚ)
      population := sumPop (c :: rest)
      constituents := some (dedupFirst ((c :: rest).flatMap
        fun s => s.name :: s.constituents.getD [])) }

theorem process_settlement_group_population (group : List Settlement) :
    (process_settlement_group group).population = sumPop group := by
  cases group <;> rfl

theorem sumPop_map_process (gs : List (List Settlement)) :
    sumPop (gs.map process_settlement_group) = sumPop (gs.flatMap id) := by
  induction gs with
  | nil => rfl
  | cons g gs ih =>
    rw [List.map_cons, sumPop_cons, process_settlement_group_population,
      List.flatMap_cons, sumPop_append, ih]
    rfl

/-- Clustering then merging conserves the total population. -/
theorem sumPop_cluster_merge (near : Settlement → Settlement → Bool)
    (settlements : List Settlement) :
    sumPop ((group_settlements near settlements).map process_settlement_group) =
      sumPop settlements := by
  rw [sumPop_map_process]
  exact sumPop_perm (group_settlements_flat_perm near settlements)

theorem process_settlement_group_regionConsistent (group : List Settlement)
    (hcons : ∀ s ∈ group, regionConsistent s)
    (hpure : ∀ s₁ ∈ group, ∀ s₂ ∈ group,
      get_admin_region s₁.name = get_admin_region s₂.name) :
    regionConsistent (process_settlement_group group) := by
  cases group with
  | nil =>
    intro c hc
    rcases List.mem_singleton.1 hc with rfl
    rfl
  | cons c rest =>
    intro cn hcn
    have hname : (process_settlement_group (c :: rest)).name = (maxByPop c rest).name := rfl
    have hmax := maxByPop_mem c rest
    have hcn' : cn ∈ dedupFirst ((c :: rest).flatMap
        fun s => s.name :: s.constituents.getD []) := by
      simpa [process_settlement_group] using hcn
    obtain ⟨s, hsmem, hcs⟩ := List.mem_flatMap.1 (mem_dedupKeys.1 hcn').1
    rw [hname]
    have hsr : get_admin_region s.name = get_admin_region (maxByPop c rest).name :=
      hpure s hsmem (maxByPop c rest) hmax
    rcases List.mem_cons.1 hcs with rfl | hcs
    · exact hsr
    · have : get_admin_region cn = get_admin_region s.name := by
        cases hco : s.constituents with
        | none => rw [hco] at hcs; exact absurd hcs (List.not_mem_nil cn)
        | some cs =>
          apply hcons s hsmem
          rw [hco] at hcs ⊢
          exact hcs
      rw [this, hsr]

/-! Stages 4–6 of `settlements.py` `main`: attach coordinates from the
`locations` mapping, apply the unresolved-rate gate, cluster, merge,
transform to grid coordinates and assemble the final dataset. -/

/-- Stage 4 (lines 633–650): split the pregrouped settlements into those with
    a resolved coordinate (rebuilt with `lat`/`lon` and a constituent list
    defaulting to the settlement's own name) and the names not found. -/
def stage4 : List Settlement → List (String × Coord) →
    List Settlement × List String
  | [], _ => ([], [])
  | s :: rest, locs =>
    match locs.lookup s.name with
    | some c =>
      ((⟨s.name, s.population, c.lat, c.lon,
          some (s.constituents.getD [s.name]), none⟩ : Settlement) ::
        (stage4 rest locs).1, (stage4 rest locs).2)
    | none => ((stage4 rest locs).1, s.name :: (stage4 rest locs).2)

/-- The final dataset (`final_data` of `settlements.py` `main`): settlement
    list plus the metadata fields this verification tracks. -/
structure FinalData where
  settlements : List Settlement
  total_population : ℤ
  total_settlements : ℕ
  total_ireland_population : ℤ
  unmatched_settlements : List String
  failure_rate : ℚ
deriving DecidableEq, Repr

/-- Lines 658–673 and 676–742 of `settlements.py` `main` (fresh-run path):
    the unresolved-rate gate (`failure_rate > 0.1` aborts, as does an empty
    match list), then clustering, merging, grid transform and metadata
    assembly.  `none` models `SystemExit`. -/
def build_final_data (grouped : List Settlement) (locations : List (String × Coord))
    (near : Settlement → Settlement → Bool) (total_ireland : ℤ) : Option FinalData :=
  if (stage4 grouped locations).2 ≠ [] ∧
      (1 : ℚ)/10 < ((stage4 grouped locations).2.length : ℚ) / (grouped.length : ℚ)
  then none
  else if (stage4 grouped locations).1 = [] then none
  else
    some
      { settlements :=
          ((group_settlements near (stage4 grouped locations).1).map
            process_settlement_group).map fun s =>
              { s with grid := some (IrelandBounds.transformPoint (s.lon, s.lat)) }
        total_population :=
          sumPop (((group_settlements near (stage4 grouped locations).1).map
            process_settlement_group).map fun s =>
              { s with grid := some (IrelandBounds.transformPoint (s.lon, s.lat)) })
        total_settlements :=
          (((group_settlements near (stage4 grouped locations).1).map
            process_settlement_group)).length
        total_ireland_population := total_ireland
        unmatched_settlements := (stage4 grouped locations).2
        failure_rate := ((stage4 grouped locations).2.length : ℚ) / (grouped.length : ℚ) }

/-- Line 755 of `settlements.py`: checkpoints are cleared after writing
    exactly when the recorded failure rate is at most 10%. -/
def checkpoints_cleared (fd : FinalData) : Bool :=
  decide (fd.failure_rate ≤ 1/10)

/-! Append mode (lines 692–726 of `settlements.py` `main`): undistribute the
previously redistributed population from the existing settlements, then
combine with the newly finalized settlements. -/

/-- Lines 692–726: compute `distributed_population` as
    `(old sum + new sum) - total_ireland_population`; when positive, subtract
    from each existing settlement its rounded proportional share; then build
    the combined dataset.  `total_ireland_population` is copied unchanged. -/
def append_combine (existing : FinalData) (final_settlements : List Settlement)
    (not_found : List String) (n_names : ℕ) : FinalData :=
  let original_total := sumPop existing.settlements
  let distributed := original_total + sumPop final_settlements -
    existing.total_ireland_population
  let adjusted :=
    if 0 < distributed then
      existing.settlements.map fun s =>
        { s with population := s.population -
            pyRound ((distributed : ℚ) * (s.population : ℚ) / (original_total : ℚ)) }
    else existing.settlements
  { settlements := adjusted ++ final_settlements
    total_population := sumPop adjusted + sumPop final_settlements
    total_settlements := adjusted.length + final_settlements.length
    total_ireland_population := existing.total_ireland_population
    unmatched_settlements := existing.unmatched_settlements ++ not_found
    failure_rate := (not_found.length : ℚ) / (n_names : ℚ) }

/-! The checkpointed geocode resolver (`settlements.py`
`fetch_locations_batch`). -/

/-- Python dict assignment `d[k] = v` on an association list: overwrite the
    existing binding or append a new one. -/
def upsert (k : String) (v : Coord) : List (String × Coord) → List (String × Coord)
  | [] => [(k, v)]
  | (k', v') :: rest =>
    if k' = k then (k, v) :: rest else (k', v') :: upsert k v rest

theorem lookup_upsert_ne (k n : String) (v : Coord) (d : List (String × Coord))
    (h : n ≠ k) : (upsert k v d).lookup n = d.lookup n := by
  have hbk : (n == k) = false := beq_eq_false_iff_ne.2 h
  induction d with
  | nil => simp [upsert, List.lookup, hbk]
  | cons p rest ih =>
    obtain ⟨k', v'⟩ := p
    rw [upsert]
    split
    · rename_i hk
      subst hk
      simp [List.lookup, hbk]
    · rw [List.lookup, List.lookup, ih]

/-- Fuelled `range(0, len(l), bs)` chunking into batches of size `bs`
    (`bs = 0` behaves as 1; the source always uses the default 50). -/
def chunksF {α : Type} : ℕ → ℕ → List α → List (List α)
  | _, _, [] => []
  | 0, _, _ :: _ => []
  | fuel + 1, bs, x :: xs => (x :: xs.take (bs - 1)) :: chunksF fuel bs (xs.drop (bs - 1))

/-- Chunk a list into batches of size `bs`. -/
def chunks {α : Type} (bs : ℕ) (l : List α) : List (List α) := chunksF l.length bs l

theorem chunksF_congr {α : Type} (bs : ℕ) :
    ∀ (f₁ f₂ : ℕ) (l : List α), l.length ≤ f₁ → l.length ≤ f₂ →
      chunksF f₁ bs l = chunksF f₂ bs l := by
  intro f₁
  induction f₁ with
  | zero =>
    intro f₂ l h₁ h₂
    cases l with
    | nil => cases f₂ <;> rfl
    | cons x xs => simp at h₁
  | succ f₁ ih =>
    intro f₂ l h₁ h₂
    cases l with
    | nil => cases f₂ <;> rfl
    | cons x xs =>
      cases f₂ with
      | zero => simp at h₂
      | succ f₂ =>
        rw [chunksF, chunksF]
        have hd : (xs.drop (bs - 1)).length ≤ f₁ ∧ (xs.drop (bs - 1)).length ≤ f₂ := by
          simp only [List.length_drop]
          simp only [List.length_cons] at h₁ h₂
          omega
        rw [ih f₂ _ hd.1 hd.2]

/-- The per-batch, per-name body of `fetch_locations_batch`: each name in the
    batch is geocoded; a hit is written into the results dict. -/
def processNames (fetch : String → Option Coord) (res : List (String × Coord)) :
    List String → List (String × Coord)
  | [] => res
  | n :: ns =>
    match fetch n with
    | some c => processNames fetch (upsert n c res) ns
    | none => processNames fetch res ns

theorem processNames_append (fetch : String → Option Coord)
    (res : List (String × Coord)) (l₁ l₂ : List String) :
    processNames fetch res (l₁ ++ l₂) =
      processNames fetch (processNames fetch res l₁) l₂ := by
  induction l₁ generalizing res with
  | nil => rfl
  | cons n ns ih =>
    rw [List.cons_append, processNames, processNames]
    cases fetch n <;> exact ih _

theorem processNames_lookup_not_mem (fetch : String → Option Coord)
    (res : List (String × Coord)) (l : List String) (n : String) (h : n ∉ l) :
    (processNames fetch res l).lookup n = res.lookup n := by
  induction l generalizing res with
  | nil => rfl
  | cons m ms ih =>
    have hnm : n ≠ m := fun hc => h (hc ▸ List.mem_cons_self m ms)
    have hms : n ∉ ms := fun hc => h (List.mem_cons_of_mem m hc)
    rw [processNames]
    cases fetch m with
    | some c => rw [ih _ hms, lookup_upsert_ne m n c res hnm]
    | none => exact ih _ hms

/-- `settlements.py` `fetch_locations_batch` (source default `batch_size=50`):
    load the `locations` checkpoint, skip names already present, geocode the
    remainder in batches, persisting after each batch.  Returns the final
    results mapping together with the list of names actually sent to the
    geocoder (each entry of `names_to_process`, one request per name). -/
def fetch_locations_batch (checkpoint : List (String × Coord)) (names : List String)
    (fetch : String → Option Coord) (batch_size : ℕ) :
    List (String × Coord) × List String :=
  ((chunks batch_size (names.filter fun n => (checkpoint.lookup n).isNone)).foldl
      (fun res batch => processNames fetch res batch) checkpoint,
    names.filter fun n => (checkpoint.lookup n).isNone)

theorem foldl_processNames_chunksF (fetch : String → Option Coord) (bs : ℕ) :
    ∀ (fuel : ℕ) (l : List String) (res : List (String × Coord)),
      l.length ≤ fuel →
      (chunksF fuel bs l).foldl (fun r b => processNames fetch r b) res =
        processNames fetch res l := by
  intro fuel
  induction fuel with
  | zero =>
    intro l res hl
    cases l with
    | nil => rfl
    | cons x xs => simp at hl
  | succ n ih =>
    intro l res hl
    cases l with
    | nil => rfl
    | cons x xs =>
      rw [chunksF, List.foldl_cons]
      have hlen : (xs.drop (bs - 1)).length ≤ n := by
        simp only [List.length_drop]
        simp only [List.length_cons] at hl
        omega
      rw [ih _ _ hlen, ← processNames_append]
      rw [List.cons_append, List.take_append_drop]

theorem foldl_processNames_chunks (fetch : String → Option Coord) (bs : ℕ)
    (res : List (String × Coord)) (l : List String) :
    (chunks bs l).foldl (fun r b => processNames fetch r b) res =
      processNames fetch res l :=
  foldl_processNames_chunksF fetch bs l.length l res (le_refl _)

theorem fetch_locations_batch_fst (checkpoint : List (String × Coord))
    (names : List String) (fetch : String → Option Coord) (batch_size : ℕ) :
    (fetch_locations_batch checkpoint names fetch batch_size).1 =
      processNames fetch checkpoint
        (names.filter fun n => (checkpoint.lookup n).isNone) :=
  foldl_processNames_chunks fetch batch_size checkpoint _

theorem stage4_notfound_nil (grouped : List Settlement)
    (locs : List (String × Coord))
    (h : ∀ s ∈ grouped, (locs.lookup s.name).isSome) :
    (stage4 grouped locs).2 = [] := by
  induction grouped with
  | nil => rfl
  | cons s rest ih =>
    have hs := h s (List.mem_cons_self s rest)
    rw [stage4]
    cases hc : locs.lookup s.name with
    | some c => exact ih fun x hx => h x (List.mem_cons_of_mem s hx)
    | none => rw [hc] at hs; simp at hs

theorem stage4_fst_ne_nil (grouped : List Settlement) (locs : List (String × Coord))
    (hg : grouped ≠ []) (h : ∀ s ∈ grouped, (locs.lookup s.name).isSome) :
    (stage4 grouped locs).1 ≠ [] := by
  cases grouped with
  | nil => exact absurd rfl hg
  | cons s rest =>
    have hs := h s (List.mem_cons_self s rest)
    rw [stage4]
    cases hc : locs.lookup s.name with
    | some c => simp
    | none => rw [hc] at hs; simp at hs

theorem stage4_sumPop_all_found (grouped : List Settlement)
    (locs : List (String × Coord))
    (h : ∀ s ∈ grouped, (locs.lookup s.name).isSome) :
    sumPop (stage4 grouped locs).1 = sumPop grouped := by
  induction grouped with
  | nil => rfl
  | cons s rest ih =>
    have hs := h s (List.mem_cons_self s rest)
    rw [stage4]
    cases hc : locs.lookup s.name with
    | some c =>
      rw [sumPop_cons]
      have := ih fun x hx => h x (List.mem_cons_of_mem s hx)
      rw [this, sumPop_cons]
    | none => rw [hc] at hs; simp at hs

theorem sumPop_map_grid (l : List Settlement)
    (g : Settlement → Option (ℚ × ℚ)) :
    sumPop (l.map fun s => { s with grid := g s }) = sumPop l := by
  induction l with
  | nil => rfl
  | cons s rest ih => rw [List.map_cons, sumPop_cons, ih, sumPop_cons]

/-- The terminal behaviour of a pipeline run at the unresolved-rate gate. -/
inductive PipelineOutcome where
  | halted
  | writtenCleared
  | writtenKept
deriving DecidableEq, Repr

/-- Lines 658–669 and 754–758 of `settlements.py` `main`: with `not_found`
    non-empty and `failure_rate > 0.1` the run exits non-zero keeping the
    checkpoints; otherwise the dataset is written, and the checkpoints are
    cleared exactly when `failure_rate <= 0.1`. -/
def unresolved_gate (n_notfound n_names : ℕ) : PipelineOutcome :=
  if n_notfound ≠ 0 ∧ (1 : ℚ)/10 < (n_notfound : ℚ) / (n_names : ℚ) then .halted
  else if (n_notfound : ℚ) / (n_names : ℚ) ≤ 1/10 then .writtenCleared
  else .writtenKept

/-! Claim theorems. -/

/-- C2, counterexample: the geo-transform provider consumed by the
orchestrator is NOT the per-axis linear interpolation onto
`[0, 100000] × [0, 100000]` described by the claim: at the bounding box's max
corner the consumed transform yields `(50000, 50000)` while the claimed
interpolation yields `(100000, 100000)`.  (The 100000-interpolation is the
separate `transform_settlements.py` script, not what `main` consumes.) -/
theorem C2_counterexample :
    IrelandBounds.transformPoint (IrelandBounds.max_lon, IrelandBounds.max_lat) =
      (50000, 50000) ∧
    lerp100k IrelandBounds.max_lat IrelandBounds.max_lon = (100000, 100000) ∧
    ((50000 : ℚ), (50000 : ℚ)) ≠ ((100000 : ℚ), (100000 : ℚ)) := by
  refine ⟨?_, ?_, by with_unfolding_all decide⟩
  · show ((IrelandBounds.max_lon - IrelandBounds.min_lon) *
      (50000 / (IrelandBounds.max_lon - IrelandBounds.min_lon)),
      (IrelandBounds.max_lat - IrelandBounds.min_lat) *
      (50000 / (IrelandBounds.max_lat - IrelandBounds.min_lat))) = (50000, 50000)
    rw [Prod.mk.injEq]
    unfold IrelandBounds.max_lon IrelandBounds.min_lon
      IrelandBounds.max_lat IrelandBounds.min_lat
    norm_num
  · unfold lerp100k IrelandBounds.max_lon IrelandBounds.min_lon
      IrelandBounds.max_lat IrelandBounds.min_lat
    rw [Prod.mk.injEq]
    norm_num

/-- C2 (amended): the transform consumed by the orchestrator
(`calculate_grid_transformation` / `transform_coordinates` of
`ireland_bounds.py`) maps every point of the Ireland bounding box into
`[0, 50000] × [0, 50000]` — not `[0, 100000]²` — by per-axis linear
interpolation between the box edges (min corner to `(0,0)`, max corner to
`(50000, 50000)`); the `[0, 100000]²` interpolation of the claim is the
separate `transform_settlements.py` map, which is exactly twice the consumed
one per axis. -/
theorem C2_transform_amended (lat lon : ℚ)
    (h1 : IrelandBounds.min_lat ≤ lat) (h2 : lat ≤ IrelandBounds.max_lat)
    (h3 : IrelandBounds.min_lon ≤ lon) (h4 : lon ≤ IrelandBounds.max_lon) :
    0 ≤ (IrelandBounds.transformPoint (lon, lat)).1 ∧
    (IrelandBounds.transformPoint (lon, lat)).1 ≤ 50000 ∧
    0 ≤ (IrelandBounds.transformPoint (lon, lat)).2 ∧
    (IrelandBounds.transformPoint (lon, lat)).2 ≤ 50000 ∧
    (IrelandBounds.transformPoint (lon, lat)).1 =
      50000 * (lon - IrelandBounds.min_lon) /
        (IrelandBounds.max_lon - IrelandBounds.min_lon) ∧
    (IrelandBounds.transformPoint (lon, lat)).2 =
      50000 * (lat - IrelandBounds.min_lat) /
        (IrelandBounds.max_lat - IrelandBounds.min_lat) ∧
    TransformSettlements.transform_coordinates lat lon =
      (2 * (IrelandBounds.transformPoint (lon, lat)).1,
       2 * (IrelandBounds.transformPoint (lon, lat)).2) := by
  have e1 : (IrelandBounds.transformPoint (lon, lat)).1 =
      (lon - IrelandBounds.min_lon) *
        (50000 / (IrelandBounds.max_lon - IrelandBounds.min_lon)) := rfl
  have e2 : (IrelandBounds.transformPoint (lon, lat)).2 =
      (lat - IrelandBounds.min_lat) *
        (50000 / (IrelandBounds.max_lat - IrelandBounds.min_lat)) := rfl
  rw [e1, e2]
  unfold TransformSettlements.transform_coordinates
  simp only [IrelandBounds.min_lat, IrelandBounds.max_lat,
    IrelandBounds.min_lon, IrelandBounds.max_lon] at h1 h2 h3 h4 ⊢
  norm_num at h1 h2 h3 h4 ⊢
  refine ⟨by linarith, by linarith, by linarith, by linarith, ?_, ?_, ?_, ?_⟩
  · ring
  · ring
  · ring
  · ring

theorem C2_transform_witness :
    (IrelandBounds.transformPoint (-8, 53)).1 ≤ 50000 ∧
    0 ≤ (IrelandBounds.transformPoint (-8, 53)).2 ∧
    TransformSettlements.transform_coordinates 53 (-8) =
      (2 * (IrelandBounds.transformPoint (-8, 53)).1,
       2 * (IrelandBounds.transformPoint (-8, 53)).2) := by
  have h := C2_transform_amended 53 (-8)
    (by norm_num [IrelandBounds.min_lat]) (by norm_num [IrelandBounds.max_lat])
    (by norm_num [IrelandBounds.min_lon]) (by norm_num [IrelandBounds.max_lon])
  exact ⟨h.2.1, h.2.2.1, h.2.2.2.2.2.2⟩

/-- The two-settlement single-region input of claim C4's counterexample. -/
def c4In : List Settlement :=
  [{ name := "A, R1", population := 600 }, { name := "B, R1", population := 300 }]

set_option maxRecDepth 40000 in
/-- C4, counterexample: with `P_min = 1000` and `N_max = 1` (reduction
necessary, input count 2 > 1), the pregrouper exhausts the region and emits
a settlement formed by grouping (two constituents) whose population 900 is
BELOW the floor `P_min = 1000`, contradicting the claim that every grouped
emission reaches the floor. -/
theorem C4_counterexample :
    1 < c4In.length ∧
    pregroup_small_settlements c4In 1000 1 =
      [{ name := "A, R1", population := 900,
         constituents := some ["A, R1", "B, R1"] }] ∧
    (900 : ℤ) < 1000 := by
  refine ⟨by with_unfolding_all decide, by with_unfolding_all decide,
    by with_unfolding_all decide⟩

/-- C4 (amended): when reduction is necessary (input count exceeds `N_max`),
the output count never exceeds the input count, settlements already at or
above `P_min` pass through untouched, and within each region every emitted
group except possibly the LAST one (formed when the region's members were
exhausted) has population `≥ P_min`. -/
theorem C4_pregroup_amended (settlements : List Settlement) (minp : ℤ)
    (maxs : ℕ) (h : maxs < settlements.length) :
    (pregroup_small_settlements settlements minp maxs).length ≤ settlements.length ∧
    (∀ s ∈ settlements, minp ≤ s.population →
      s ∈ pregroup_small_settlements settlements minp maxs) ∧
    (∀ rs : List Settlement, ∀ m ∈ (processRegion minp rs).dropLast,
      minp ≤ m.population) := by
  have hc : ¬ settlements.length ≤ maxs := by omega
  refine ⟨?_, ?_, ?_⟩
  · rw [pregroup_eq_raw _ _ _ hc]
    exact length_pregroupRaw_le settlements minp
  · intro s hs hp
    rw [pregroup_eq_raw _ _ _ hc]
    exact mem_pregroupRaw_of_above settlements minp hs hp
  · exact processRegion_dropLast minp

set_option maxRecDepth 40000 in
theorem C4_pregroup_witness :
    (pregroup_small_settlements c4In 1000 1).length ≤ c4In.length ∧
    (∀ m ∈ (processRegion 1000 c4In).dropLast, (1000 : ℤ) ≤ m.population) := by
  have h := C4_pregroup_amended c4In 1000 1 (by with_unfolding_all decide)
  exact ⟨h.1, h.2.2 c4In⟩

/-- The two-settlement scenario input of claim C5. -/
def c5In : List Settlement :=
  [{ name := "A, Region1", population := 500 },
   { name := "B, Region1", population := 600 }]

set_option maxRecDepth 40000 in
/-- C5, counterexample: with the floor `P_min = 1000` and the source's own
default `max_settlements = 1000`, the two-settlement input takes the
`len(settlements) <= max_settlements` fast path and is returned UNCHANGED —
two settlements, not the single merged `"B, Region1"` settlement the claim
requires. -/
theorem C5_counterexample :
    pregroup_small_settlements c5In 1000 1000 = c5In ∧
    (pregroup_small_settlements c5In 1000 1000).length = 2 ∧ (2 : ℕ) ≠ 1 := by
  refine ⟨by with_unfolding_all decide, by with_unfolding_all decide, by decide⟩

set_option maxRecDepth 40000 in
/-- C5 (amended): the claimed merge happens once reduction is actually
required: with `P_min = 1000` and `N_max = 1`, the pregrouper merges the two
settlements into exactly one named `"B, Region1"` (the larger member) with
population 1100 and constituents `["B, Region1", "A, Region1"]`. -/
theorem C5_scenario_amended :
    pregroup_small_settlements c5In 1000 1 =
      [{ name := "B, Region1", population := 1100,
         constituents := some ["B, Region1", "A, Region1"] }] := by
  with_unfolding_all decide

/-- C6 (confirmed): the unresolved-rate gate is a strict 10% threshold.
With at least one input name: a rate strictly above `1/10` halts the run
keeping checkpoints; a rate at most `1/10` (including exactly `1/10`) writes
the dataset and clears the checkpoints; no other outcome is reachable.
Moreover every dataset `build_final_data` actually writes has
`failure_rate ≤ 1/10`, so the post-write cleanup (`checkpoints_cleared`)
always fires on a written dataset. -/
theorem C6_unresolved_gate (k n : ℕ) (hn : 0 < n) :
    ((1 : ℚ)/10 < (k : ℚ) / (n : ℚ) → unresolved_gate k n = .halted) ∧
    ((k : ℚ) / (n : ℚ) ≤ 1/10 → unresolved_gate k n = .writtenCleared) ∧
    unresolved_gate k n ≠ .writtenKept ∧
    (∀ (grouped : List Settlement) (locs : List (String × Coord))
      (near : Settlement → Settlement → Bool) (T : ℤ) (fd : FinalData),
      build_final_data grouped locs near T = some fd →
      checkpoints_cleared fd = true) := by
  have hk0 : ∀ {m : ℕ}, (1 : ℚ)/10 < (m : ℚ) / (n : ℚ) → m ≠ 0 := by
    intro m hm hm0
    rw [hm0] at hm
    norm_num at hm
  refine ⟨?_, ?_, ?_, ?_⟩
  · intro hrate
    rw [unresolved_gate, if_pos ⟨hk0 hrate, hrate⟩]
  · intro hrate
    rw [unresolved_gate, if_neg (by push_neg; intro _; linarith), if_pos hrate]
  · intro hkept
    rw [unresolved_gate] at hkept
    by_cases hcond : k ≠ 0 ∧ (1 : ℚ)/10 < (k : ℚ) / (n : ℚ)
    · rw [if_pos hcond] at hkept
      exact PipelineOutcome.noConfusion hkept
    · rw [if_neg hcond] at hkept
      by_cases hle : (k : ℚ) / (n : ℚ) ≤ 1/10
      · rw [if_pos hle] at hkept
        exact PipelineOutcome.noConfusion hkept
      · push_neg at hcond hle
        rcases Nat.eq_zero_or_pos k with rfl | hkpos
        · norm_num at hle
        · exact absurd (hcond (by omega)) (not_le.2 hle)
  · intro grouped locs near T fd hfd
    rw [build_final_data] at hfd
    split_ifs at hfd with hgate hempty
    · have hfd' := Option.some.inj hfd
      rw [← hfd', checkpoints_cleared, decide_eq_true_eq]
      show ((stage4 grouped locs).2.length : ℚ) / (grouped.length : ℚ) ≤ 1/10
      by_cases hnf : (stage4 grouped locs).2 = []
      · rw [hnf]
        norm_num
      · have := not_and.1 hgate hnf
        linarith [not_lt.1 this]

theorem C6_unresolved_gate_witness :
    unresolved_gate 1 10 = .writtenCleared ∧ unresolved_gate 2 10 = .halted := by
  refine ⟨(C6_unresolved_gate 1 10 (by norm_num)).2.1 (by norm_num),
    (C6_unresolved_gate 2 10 (by norm_num)).1 (by norm_num)⟩

set_option maxRecDepth 40000 in
/-- C10 (confirmed): a settlement name containing no comma has the empty
administrative region, so any two comma-free names share a region and are
eligible for merging/clustering together: concretely the pregrouper merges
two comma-free below-floor settlements and the clusterer puts two comma-free
settlements in one cluster. -/
theorem C10_no_comma_region (n₁ n₂ : String)
    (h₁ : ',' ∉ n₁.toList) (h₂ : ',' ∉ n₂.toList) :
    (get_admin_region n₁ = "" ∧ get_admin_region n₂ = "" ∧
      get_admin_region n₁ = get_admin_region n₂) ∧
    pregroup_small_settlements
        [{ name := "Inis", population := 400 }, { name := "Cill", population := 700 }]
        1000 1 =
      [{ name := "Cill", population := 1100,
         constituents := some ["Cill", "Inis"] }] ∧
    group_settlements (fun _ _ => true)
        [{ name := "Inis", population := 400 }, { name := "Cill", population := 700 }] =
      [[{ name := "Cill", population := 700 }, { name := "Inis", population := 400 }]] := by
  refine ⟨⟨get_admin_region_of_no_comma h₁, get_admin_region_of_no_comma h₂, ?_⟩,
    by with_unfolding_all decide, by with_unfolding_all decide⟩
  rw [get_admin_region_of_no_comma h₁, get_admin_region_of_no_comma h₂]

theorem C10_no_comma_witness :
    get_admin_region "Dingle" = "" ∧
    get_admin_region "Dingle" = get_admin_region "Doolin" := by
  have h := C10_no_comma_region "Dingle" "Doolin" (by decide) (by decide)
  exact ⟨h.1.1, h.1.2.2⟩

/-- Modelled from the claim's wording, for comparison with the code: the
merged constituent list as the concatenation of every member's own
constituents, falling back to the member's own name ONLY when it has none,
de-duplicated keeping first occurrences. -/
def specConstituents (group : List Settlement) : List String :=
  dedupFirst (group.flatMap fun s =>
    match s.constituents with
    | some cs => cs
    | none => [s.name])

/-- The single-member cluster of claim C3's counterexample: a settlement
whose recorded constituents do not mention its own name. -/
def c3Cex : List Settlement :=
  [{ name := "A", population := 1, constituents := some ["B"] }]

/-- C3, counterexample: `process_settlement_group` always contributes each
member's own name (then its constituents), not only as a fallback when the
member has none: on a member named `"A"` with constituents `["B"]` the code
returns `["A", "B"]` while the claimed fallback-only rule yields `["B"]`. -/
theorem C3_counterexample :
    (process_settlement_group c3Cex).constituents = some ["A", "B"] ∧
    specConstituents c3Cex = ["B"] ∧
    (process_settlement_group c3Cex).constituents ≠ some (specConstituents c3Cex) := by
  refine ⟨by with_unfolding_all decide, by with_unfolding_all decide,
    by with_unfolding_all decide⟩

/-- C3 (amended): for every non-empty cluster with positive total population,
the merged settlement has population equal to the exact integer sum of the
members' populations; its coordinate is the population-weighted centroid
(stated denominator-cleared); its name is the name of a member of maximal
population (the first such, so THE highest-population member when unique);
and its constituent list is `some` list that de-duplicates, preserving first
occurrences (order witnessed by sublist), the concatenation over members of
each member's OWN NAME followed by its recorded constituents — each member's
name is always contributed, not only when it has no constituents. -/
theorem C3_merger_amended (c : Settlement) (rest : List Settlement)
    (hpos : 0 < sumPop (c :: rest)) :
    (process_settlement_group (c :: rest)).population = sumPop (c :: rest) ∧
    (process_settlement_group (c :: rest)).lat * ((sumPop (c :: rest) : ℤ) : ℚ) =
      ((c :: rest).map fun s => s.lat * (s.population : ℚ)).sum ∧
    (process_settlement_group (c :: rest)).lon * ((sumPop (c :: rest) : ℤ) : ℚ) =
      ((c :: rest).map fun s => s.lon * (s.population : ℚ)).sum ∧
    (∃ m ∈ c :: rest, (process_settlement_group (c :: rest)).name = m.name ∧
      ∀ s ∈ c :: rest, s.population ≤ m.population) ∧
    (∃ cs, (process_settlement_group (c :: rest)).constituents = some cs ∧
      cs.Nodup ∧
      (∀ x, x ∈ cs ↔
        x ∈ (c :: rest).flatMap fun s => s.name :: s.constituents.getD []) ∧
      cs.Sublist ((c :: rest).flatMap fun s => s.name :: s.constituents.getD [])) := by
  have hT : (((sumPop (c :: rest) : ℤ) : ℚ)) ≠ 0 := by
    exact_mod_cast ne_of_gt hpos
  refine ⟨rfl, ?_, ?_, ?_, ?_⟩
  · show (((c :: rest).map fun s => s.lat * (s.population : ℚ)).sum /
      ((sumPop (c :: rest) : ℤ) : ℚ)) * ((sumPop (c :: rest) : ℤ) : ℚ) = _
    exact div_mul_cancel₀ _ hT
  · show (((c :: rest).map fun s => s.lon * (s.population : ℚ)).sum /
      ((sumPop (c :: rest) : ℤ) : ℚ)) * ((sumPop (c :: rest) : ℤ) : ℚ) = _
    exact div_mul_cancel₀ _ hT
  · exact ⟨maxByPop c rest, maxByPop_mem c rest, rfl, le_maxByPop c rest⟩
  · refine ⟨dedupFirst ((c :: rest).flatMap fun s => s.name :: s.constituents.getD []),
      rfl, dedupKeys_nodup _ _, ?_, dedupKeys_sublist _ _⟩
    intro x
    rw [dedupFirst, mem_dedupKeys]
    simp

theorem C3_merger_witness :
    (process_settlement_group
      [{ name := "X, R", population := 5, lat := 2, lon := 3 }]).population = 5 := by
  have h := (C3_merger_amended
    { name := "X, R", population := 5, lat := 2, lon := 3 } []
    (by with_unfolding_all decide)).1
  rw [h]
  with_unfolding_all decide

/-- C8 (confirmed): region purity.  Every cluster returned by
`group_settlements` is region-pure for ANY distance oracle; and whenever the
inputs' recorded constituents carry their own settlement's region (as raw
census rows trivially do), every settlement emitted by
`pregroup_small_settlements` and every merge by `process_settlement_group`
over a region-pure cluster again carries constituents of a single
administrative region. -/
theorem C8_region_purity :
    (∀ (near : Settlement → Settlement → Bool) (l : List Settlement),
      ∀ g ∈ group_settlements near l, ∀ s₁ ∈ g, ∀ s₂ ∈ g,
        get_admin_region s₁.name = get_admin_region s₂.name) ∧
    (∀ (l : List Settlement) (minp : ℤ) (maxs : ℕ),
      (∀ s ∈ l, regionConsistent s) →
      ∀ s ∈ pregroup_small_settlements l minp maxs, regionConsistent s) ∧
    (∀ g : List Settlement, (∀ s ∈ g, regionConsistent s) →
      (∀ s₁ ∈ g, ∀ s₂ ∈ g, get_admin_region s₁.name = get_admin_region s₂.name) →
      regionConsistent (process_settlement_group g)) := by
  refine ⟨?_, ?_, ?_⟩
  · intro near l
    exact groupLoopF_region_pure near l.length (sortByPopDesc l)
  · intro l minp maxs h
    exact pregroup_regionConsistent l minp maxs h
  · exact process_settlement_group_regionConsistent

set_option maxRecDepth 40000 in
theorem C8_region_purity_witness :
    regionConsistent ({ name := "A, R1", population := 900,
                        constituents := some ["A, R1", "B, R1"] } : Settlement) := by
  have h := C8_region_purity.2.1 c4In 1000 1 (by with_unfolding_all decide)
  exact h _ (by with_unfolding_all decide)

/-- C9, counterexample: running the resolver twice over the same name list is
NOT free of work the second time: a name that failed to geocode in the first
run is absent from the saved mapping, so the second run sends it to the
geocoder again (the request list of the second run is `["Atlantis"]`, not
empty). -/
theorem C9_counterexample :
    (fetch_locations_batch
      (fetch_locations_batch [] ["Atlantis"] (fun _ => none) 50).1
      ["Atlantis"] (fun _ => none) 50).2 = ["Atlantis"] ∧
    (["Atlantis"] : List String) ≠ [] := by
  exact ⟨rfl, by decide⟩

/-- C9 (amended): geocode idempotence per name.  A name already present in
the loaded `locations` checkpoint is never sent to the geocoder and keeps its
checkpointed coordinate in the returned mapping.  Running the resolver twice
over the same list, the second run requests ONLY names still unresolved after
the first; in particular when every name resolved, the second run issues zero
requests and returns the mapping unchanged. -/
theorem C9_geocode_idempotent (checkpoint : List (String × Coord))
    (names : List String) (fetch : String → Option Coord) (bs : ℕ) (n : String) :
    ((checkpoint.lookup n).isSome →
      n ∉ (fetch_locations_batch checkpoint names fetch bs).2 ∧
      (fetch_locations_batch checkpoint names fetch bs).1.lookup n =
        checkpoint.lookup n) ∧
    (∀ m ∈ (fetch_locations_batch
        (fetch_locations_batch checkpoint names fetch bs).1 names fetch bs).2,
      (((fetch_locations_batch checkpoint names fetch bs).1).lookup m).isNone) ∧
    ((∀ m ∈ names,
        (((fetch_locations_batch checkpoint names fetch bs).1).lookup m).isSome) →
      (fetch_locations_batch
        (fetch_locations_batch checkpoint names fetch bs).1 names fetch bs).2 = [] ∧
      (fetch_locations_batch
        (fetch_locations_batch checkpoint names fetch bs).1 names fetch bs).1 =
        (fetch_locations_batch checkpoint names fetch bs).1) := by
  have hsnd : ∀ (cp : List (String × Coord)),
      (fetch_locations_batch cp names fetch bs).2 =
        names.filter fun m => (cp.lookup m).isNone := fun _ => rfl
  refine ⟨?_, ?_, ?_⟩
  · intro hsome
    have hnot : n ∉ names.filter fun m => (checkpoint.lookup m).isNone := by
      intro hmem
      have := (List.mem_filter.1 hmem).2
      rw [Option.isNone_iff_eq_none] at this
      rw [this] at hsome
      simp at hsome
    refine ⟨by rw [hsnd]; exact hnot, ?_⟩
    rw [fetch_locations_batch_fst]
    exact processNames_lookup_not_mem fetch checkpoint _ n hnot
  · intro m hm
    rw [hsnd] at hm
    exact (List.mem_filter.1 hm).2
  · intro hall
    have hfil : (names.filter fun m =>
        (((fetch_locations_batch checkpoint names fetch bs).1).lookup m).isNone) = [] := by
      apply List.filter_eq_nil.2
      intro m hm
      have := hall m hm
      rw [Option.isSome_iff_ne_none] at this
      simpa [Option.isNone_iff_eq_none] using this
    constructor
    · rw [hsnd, hfil]
    · rw [fetch_locations_batch_fst, hfil]
      rfl

theorem C9_geocode_witness :
    "Cork" ∉ (fetch_locations_batch [("Cork", ⟨1, 2⟩)] ["Cork"]
      (fun _ => none) 50).2 ∧
    (fetch_locations_batch [("Cork", ⟨1, 2⟩)] ["Cork"]
      (fun _ => none) 50).1.lookup "Cork" = some ⟨1, 2⟩ := by
  have h := (C9_geocode_idempotent [("Cork", ⟨1, 2⟩)] ["Cork"]
    (fun _ => none) 50 "Cork").1 (by decide)
  exact ⟨h.1, h.2.trans (by decide)⟩

/-- Ten equal settlements of one region totalling 1000, for claim C1's
counterexample. -/
def c1In : List Settlement :=
  [{ name := "S0, R", population := 100 }, { name := "S1, R", population := 100 },
   { name := "S2, R", population := 100 }, { name := "S3, R", population := 100 },
   { name := "S4, R", population := 100 }, { name := "S5, R", population := 100 },
   { name := "S6, R", population := 100 }, { name := "S7, R", population := 100 },
   { name := "S8, R", population := 100 }, { name := "S9, R", population := 100 }]

/-- Coordinates for nine of the ten settlements of `c1In`: `"S9, R"` stays
unresolved, giving an unresolved rate of exactly 10%, which passes the gate. -/
def c1Locs : List (String × Coord) :=
  [("S0, R", ⟨53, -8⟩), ("S1, R", ⟨53, -8⟩), ("S2, R", ⟨53, -8⟩),
   ("S3, R", ⟨53, -8⟩), ("S4, R", ⟨53, -8⟩), ("S5, R", ⟨53, -8⟩),
   ("S6, R", ⟨53, -8⟩), ("S7, R", ⟨53, -8⟩), ("S8, R", ⟨53, -8⟩)]

set_option maxRecDepth 100000 in
/-- C1, counterexample: `metadata.total_population` of the final written
dataset does NOT equal the original pre-pregrouping total whenever a
settlement name stays unresolved within the tolerated 10%: on `c1In`
(total 1000) with `"S9, R"` unresolved, the pipeline writes a dataset whose
`total_population` is 900 — the unresolved settlement's population is simply
dropped, with no redistribution reconciling it. -/
theorem C1_counterexample :
    sumPop c1In = 1000 ∧
    (build_final_data (pregroup_small_settlements c1In 1000 1000) c1Locs
      (fun _ _ => true) (sumPop c1In)).map FinalData.total_population = some 900 ∧
    (900 : ℤ) ≠ 1000 := by
  refine ⟨by with_unfolding_all decide, by with_unfolding_all decide, by decide⟩

/-- C1 (amended): total population is conserved exactly by the pregrouper on
every input and by clustering-plus-merging on every geocoded list; and
`metadata.total_population` of the written dataset equals the original
pre-pregrouping total PROVIDED every pregrouped settlement's name resolves to
a coordinate (names left unresolved — tolerated up to a 10% rate — are
dropped from the final dataset and from its `total_population`). -/
theorem C1_population_conservation (input : List Settlement) (minp : ℤ)
    (maxs : ℕ) (locations : List (String × Coord))
    (near : Settlement → Settlement → Bool) :
    sumPop (pregroup_small_settlements input minp maxs) = sumPop input ∧
    (∀ geos : List Settlement, (∀ s ∈ geos, 0 < s.population) →
      sumPop ((group_settlements near geos).map process_settlement_group) =
        sumPop geos) ∧
    ((∀ s ∈ input, 0 < s.population) → input ≠ [] →
      (∀ s ∈ pregroup_small_settlements input minp maxs,
        (locations.lookup s.name).isSome) →
      (build_final_data (pregroup_small_settlements input minp maxs) locations
        near (sumPop input)).map FinalData.total_population =
        some (sumPop input)) := by
  refine ⟨sumPop_pregroup input minp maxs, ?_, ?_⟩
  · intro geos _
    exact sumPop_cluster_merge near geos
  · intro _ hne hall
    have hG : pregroup_small_settlements input minp maxs ≠ [] :=
      pregroup_ne_nil input minp maxs hne
    have hnf : (stage4 (pregroup_small_settlements input minp maxs) locations).2 = [] :=
      stage4_notfound_nil _ _ hall
    have hfst : (stage4 (pregroup_small_settlements input minp maxs) locations).1 ≠ [] :=
      stage4_fst_ne_nil _ _ hG hall
    rw [build_final_data, if_neg (fun hcond => hcond.1 hnf), if_neg hfst]
    show some _ = some (sumPop input)
    refine congrArg some ?_
    rw [sumPop_map_grid, sumPop_cluster_merge, stage4_sumPop_all_found _ _ hall,
      sumPop_pregroup]

/-- One-settlement fully resolved input for claim C1's witness. -/
def c1wIn : List Settlement := [{ name := "A, R", population := 100 }]

/-- Its resolved coordinate set. -/
def c1wLocs : List (String × Coord) := [("A, R", ⟨53, -8⟩)]

set_option maxRecDepth 40000 in
theorem C1_population_witness :
    (build_final_data (pregroup_small_settlements c1wIn 1000 1000) c1wLocs
      (fun _ _ => true) (sumPop c1wIn)).map FinalData.total_population =
      some (sumPop c1wIn) := by
  exact (C1_population_conservation c1wIn 1000 1000 c1wLocs (fun _ _ => true)).2.2
    (by with_unfolding_all decide) (by with_unfolding_all decide)
    (by with_unfolding_all decide)

theorem castIntListSum (l : List ℤ) :
    ((l.sum : ℤ) : ℚ) = (l.map fun z => ((z : ℤ) : ℚ)).sum := by
  induction l with
  | nil => simp
  | cons x xs ih =>
    rw [List.sum_cons, List.map_cons, List.sum_cons, ← ih]
    push_cast
    ring

theorem abs_sum_pyRound_sub (l : List ℚ) :
    |(l.map fun x => ((pyRound x : ℤ) : ℚ)).sum - l.sum| ≤ (l.length : ℚ) / 2 := by
  induction l with
  | nil => simp
  | cons x xs ih =>
    simp only [List.map_cons, List.sum_cons, List.length_cons]
    have h1 : ((pyRound x : ℚ) + (xs.map fun x => ((pyRound x : ℤ) : ℚ)).sum) -
        (x + xs.sum) =
        ((pyRound x : ℚ) - x) +
          ((xs.map fun x => ((pyRound x : ℤ) : ℚ)).sum - xs.sum) := by ring
    rw [h1]
    refine le_trans (abs_add _ _) ?_
    have h2 := abs_pyRound_sub_le x
    push_cast
    linarith

theorem sumPop_map_sub (f : Settlement → ℤ) (l : List Settlement) :
    sumPop (l.map fun s => { s with population := s.population - f s }) =
      sumPop l - (l.map f).sum := by
  induction l with
  | nil => rfl
  | cons x xs ih =>
    rw [List.map_cons, List.map_cons, List.sum_cons]
    have hh : sumPop ((({ x with population := x.population - f x }) : Settlement) ::
        (xs.map fun s => { s with population := s.population - f s })) =
        (x.population - f x) +
          sumPop (xs.map fun s => { s with population := s.population - f s }) := rfl
    rw [hh, ih, sumPop_cons]
    omega

theorem sum_div_pop (d T : ℤ) (l : List Settlement) :
    (l.map fun s => (d : ℚ) * (s.population : ℚ) / (T : ℚ)).sum =
      (d : ℚ) * ((sumPop l : ℤ) : ℚ) / (T : ℚ) := by
  induction l with
  | nil => simp [sumPop]
  | cons x xs ih =>
    rw [List.map_cons, List.sum_cons, ih, sumPop_cons]
    push_cast
    ring

/-- C7 (amended): in append mode the metadata `total_ireland_population` is
written unchanged; the undistribution step fires only when
`d = (old settlement sum + new sum) - total_ireland_population` is positive
(so `d` equals the newly appended sum only when the old settlements already
summed exactly to `total_ireland_population`), and the aggregate reduction it
applies to the old settlements equals `d` only up to per-settlement banker's
rounding — within half a unit per existing settlement — not exactly. -/
theorem C7_append_amended (existing : FinalData) (newS : List Settlement)
    (nf : List String) (nn : ℕ) :
    (append_combine existing newS nf nn).total_ireland_population =
      existing.total_ireland_population ∧
    (sumPop existing.settlements + sumPop newS -
        existing.total_ireland_population ≤ 0 →
      (append_combine existing newS nf nn).settlements =
        existing.settlements ++ newS) ∧
    (0 < sumPop existing.settlements + sumPop newS -
        existing.total_ireland_population →
     0 < sumPop existing.settlements →
      |((sumPop existing.settlements + sumPop newS -
          sumPop ((append_combine existing newS nf nn).settlements) : ℤ) : ℚ) -
        ((sumPop existing.settlements + sumPop newS -
          existing.total_ireland_population : ℤ) : ℚ)| ≤
        (existing.settlements.length : ℚ) / 2) := by
  refine ⟨rfl, ?_, ?_⟩
  · intro h
    show (if 0 < sumPop existing.settlements + sumPop newS -
        existing.total_ireland_population then _ else existing.settlements) ++ newS =
      existing.settlements ++ newS
    rw [if_neg (not_lt.2 h)]
  · intro hd hT
    have hTne : ((sumPop existing.settlements : ℤ) : ℚ) ≠ 0 := by
      exact_mod_cast ne_of_gt hT
    have hsett : (append_combine existing newS nf nn).settlements =
        (existing.settlements.map fun s =>
          { s with population := s.population -
              pyRound (((sumPop existing.settlements + sumPop newS -
                existing.total_ireland_population : ℤ) : ℚ) * (s.population : ℚ) /
                ((sumPop existing.settlements : ℤ) : ℚ)) }) ++ newS := by
      show (if 0 < sumPop existing.settlements + sumPop newS -
          existing.total_ireland_population then _ else existing.settlements) ++ newS = _
      rw [if_pos hd]
    rw [hsett, sumPop_append, sumPop_map_sub]
    have hsum : sumPop existing.settlements + sumPop newS -
        (sumPop existing.settlements -
          (existing.settlements.map fun s =>
            pyRound (((sumPop existing.settlements + sumPop newS -
              existing.total_ireland_population : ℤ) : ℚ) * (s.population : ℚ) /
              ((sumPop existing.settlements : ℤ) : ℚ))).sum + sumPop newS) =
        (existing.settlements.map fun s =>
            pyRound (((sumPop existing.settlements + sumPop newS -
              existing.total_ireland_population : ℤ) : ℚ) * (s.population : ℚ) /
              ((sumPop existing.settlements : ℤ) : ℚ))).sum := by
      omega
    rw [hsum, castIntListSum, List.map_map]
    have hq : ((sumPop existing.settlements + sumPop newS -
        existing.total_ireland_population : ℤ) : ℚ) =
        (existing.settlements.map fun s =>
          ((sumPop existing.settlements + sumPop newS -
            existing.total_ireland_population : ℤ) : ℚ) * (s.population : ℚ) /
            ((sumPop existing.settlements : ℤ) : ℚ)).sum := by
      rw [sum_div_pop, mul_div_assoc, div_self hTne, mul_one]
    nth_rewrite 2 [hq]
    have hfin := abs_sum_pyRound_sub (existing.settlements.map fun s =>
      ((sumPop existing.settlements + sumPop newS -
        existing.total_ireland_population : ℤ) : ℚ) * (s.population : ℚ) /
        ((sumPop existing.settlements : ℤ) : ℚ))
    rw [List.length_map, List.map_map] at hfin
    exact hfin

/-- The existing dataset of claim C7's counterexample: three settlements
summing exactly to the recorded `total_ireland_population` of 5,000,000. -/
def c7Ex : FinalData :=
  { settlements :=
      [{ name := "D1, L", population := 1666666 },
       { name := "D2, L", population := 1666667 },
       { name := "D3, L", population := 1666667 }]
    total_population := 5000000
    total_settlements := 3
    total_ireland_population := 5000000
    unmatched_settlements := []
    failure_rate := 0 }

/-- The newly finalized settlements of claim C7, summing to 200,000. -/
def c7New : List Settlement := [{ name := "New, R", population := 200000 }]

/-- C7, counterexample: combining `c7Ex` (metadata total 5,000,000) with new
settlements summing to 200,000, the orchestrator reduces the existing
settlements by 200,001 in aggregate — each of the three settlements is
reduced by `round(200000·pᵢ/5000000) = 66667` — not by exactly 200,000 as the
claim states.  The written `total_ireland_population` does stay 5,000,000. -/
theorem C7_counterexample :
    sumPop c7Ex.settlements + sumPop c7New -
      sumPop ((append_combine c7Ex c7New [] 1).settlements) = 200001 ∧
    (200001 : ℤ) ≠ 200000 ∧
    (append_combine c7Ex c7New [] 1).total_ireland_population = 5000000 := by
  refine ⟨by with_unfolding_all decide, by decide, by with_unfolding_all decide⟩

theorem C7_append_witness :
    (append_combine c7Ex c7New [] 1).total_ireland_population =
      c7Ex.total_ireland_population ∧
    |((sumPop c7Ex.settlements + sumPop c7New -
        sumPop ((append_combine c7Ex c7New [] 1).settlements) : ℤ) : ℚ) -
      ((sumPop c7Ex.settlements + sumPop c7New -
        c7Ex.total_ireland_population : ℤ) : ℚ)| ≤
      (c7Ex.settlements.length : ℚ) / 2 := by
  have h := C7_append_amended c7Ex c7New [] 1
  exact ⟨h.1, h.2.2 (by with_unfolding_all decide) (by with_unfolding_all decide)⟩
